import Mathlib

/-!
Verification development for the TOML-to-custom-config converter
(main.py).  The Python source is shallowly embedded: each Python function
is translated to an executable Lean definition over explicit data types,
and the spec claims are settled as theorems about those definitions.

Conventions of the embedding:
* Python strings are Lean `String` values; the character-level helpers
  (`pyStrip`, `pySplitWs`, ...) reimplement the exact Python behaviour of
  `str.strip`, `str.split()` (no arguments), `str.isdigit` (ASCII range),
  `str.startswith` and `str.endswith`.
* Python numbers are `NumVal`: `int` literals are `intV`, `bool` values
  (a subclass of `int` in Python, hence caught by
  `isinstance(value, (int, float))`) are `boolV`, and `float` values are
  `floatV` carried as exact rationals.  No claim exercises float rounding
  or float rendering.
* The mutable `constants` dictionary is an insertion-ordered association
  list (`Env`) with overwrite-in-place assignment, matching `dict`
  semantics.  The evaluator threads the dictionary through every step and
  returns it, so that absence of mutation is a provable property.
* Exceptions become `Except` values.  `EvalError.unknownToken` is the
  `ValueError` raised by `evaluate_infix`; `EvalError.popEmpty` is the
  `IndexError` raised by `deque.pop` on an empty deque; `EvalError.zeroDiv`
  is the `ZeroDivisionError` of the `/` operator.  `process_data` catches
  only `ValueError` (see `processEntry`), exactly as the source does.
-/

/-! ### Character-level helpers mirroring the Python string methods -/

/-- Python `str.strip()` with no argument: remove leading and trailing
whitespace. -/
def pyStrip (s : String) : String :=
  String.mk (((s.toList.dropWhile Char.isWhitespace).reverse.dropWhile
      Char.isWhitespace).reverse)

/-- Auxiliary scanner for `str.split()`: accumulates the current word in
reverse and emits maximal nonempty runs of non-whitespace characters. -/
def splitWsAux : List Char → List Char → List String
  | [], cur => if cur.isEmpty then [] else [String.mk cur.reverse]
  | c :: cs, cur =>
    if c.isWhitespace then
      if cur.isEmpty then splitWsAux cs [] else String.mk cur.reverse :: splitWsAux cs []
    else splitWsAux cs (c :: cur)

/-- Python `str.split()` with no argument: split on whitespace runs,
dropping empty fields. -/
def pySplitWs (s : String) : List String := splitWsAux s.toList []

/-- Python `str.startswith`. -/
def pyStartsWith (s pre : String) : Bool := pre.toList.isPrefixOf s.toList

/-- Python `str.endswith`. -/
def pyEndsWith (s suf : String) : Bool := suf.toList.isSuffixOf s.toList

/-- Python `tok.isdigit()` for the ASCII tokens the pipeline handles:
nonempty and all decimal digits. -/
def pyIsdigit (s : String) : Bool := !s.toList.isEmpty && s.toList.all Char.isDigit

/-- Numeric value of a digit-only token, as computed by Python `int(tok)`. -/
def digitsVal (cs : List Char) : Nat := cs.foldl (fun n c => 10 * n + (c.toNat - 48)) 0

/-- Python `int(tok)` on a token that passed `isdigit`. -/
def pyInt (s : String) : Int := Int.ofNat (digitsVal s.toList)

/-- Python `"sep".join(xs)`. -/
def joinStr (sep : String) : List String → String
  | [] => ""
  | [s] => s
  | s :: rest => s ++ sep ++ joinStr sep rest

/-- Whether `pat` occurs as a contiguous run inside the character list,
mirroring the Python `in` test on strings. -/
def hasSubIn (pat : List Char) : List Char → Bool
  | [] => pat.isEmpty
  | c :: rest => pat.isPrefixOf (c :: rest) || hasSubIn pat rest

/-! ### Numeric values -/

/-- A Python numeric value as stored on the evaluator stack and in the
constants dictionary.  Python `bool` is a subclass of `int`, so the
`isinstance(value, (int, float))` dispatch in `process_data` also catches
booleans; floats are modelled as exact rationals. -/
inductive NumVal where
  | intV (n : Int)
  | boolV (b : Bool)
  | floatV (q : Rat)
deriving DecidableEq, Repr

/-- Numeric magnitude used by Python arithmetic: `True` is 1, `False` 0. -/
def NumVal.toQ : NumVal → Rat
  | intV n => (n : Rat)
  | boolV b => if b then 1 else 0
  | floatV q => q

def NumVal.isFloat : NumVal → Bool
  | floatV _ => true
  | _ => false

/-- The integer magnitude of an int or bool operand.  The float case is
never consulted: the operator table dispatches any float operand to the
rational branch. -/
def NumVal.toIntM : NumVal → Int
  | intV n => n
  | boolV b => if b then 1 else 0
  | floatV q => q.num

/-- Python `str(value)` / f-string rendering of a numeric value.  Ints
print in decimal, booleans as `True` / `False`.  Python float repr is not
modelled exactly (no claim renders a float). -/
def NumVal.render : NumVal → String
  | intV n => toString n
  | boolV b => if b then "True" else "False"
  | floatV q => toString q

/-- Failure modes of the token evaluator.  `unknownToken` is a
`ValueError`; `popEmpty` is the `IndexError` raised by `deque.pop` on an
empty deque; `zeroDiv` is a `ZeroDivisionError`. -/
inductive EvalError where
  | unknownToken (t : String)
  | popEmpty
  | zeroDiv
deriving DecidableEq, Repr

/-- Shared shape of the `+`, `-`, `*` lambdas of the OPERATORS table:
any float operand makes the result a float, otherwise the result is the
int produced by the same operation on the integer magnitudes (Python
bools coerce to 0/1 and produce ints). -/
def numBinArith (fInt : Int → Int → Int) (fRat : Rat → Rat → Rat) (a b : NumVal) : NumVal :=
  if a.isFloat || b.isFloat then .floatV (fRat a.toQ b.toQ)
  else .intV (fInt a.toIntM b.toIntM)

/-- The `min` lambda of OPERATORS: `x if x < y else y`, returning one of
the operands unchanged. -/
def numMin (a b : NumVal) : NumVal := if a.toQ < b.toQ then a else b

/-- The `/` lambda of OPERATORS: Python true division, always a float,
raising ZeroDivisionError on a zero divisor. -/
def numDiv (a b : NumVal) : Except EvalError NumVal :=
  if b.toQ = 0 then .error .zeroDiv else .ok (.floatV (a.toQ / b.toQ))

/-- Keys of the OPERATORS dictionary, in source order. -/
def opNames : List String := ["+", "-", "*", "/", "min"]

/-- Dispatch through the OPERATORS dictionary: `OPERATORS[op](a, b)`. -/
def applyOp (op : String) (a b : NumVal) : Except EvalError NumVal :=
  if op = "+" then .ok (numBinArith (fun x y => x + y) (fun x y => x + y) a b)
  else if op = "-" then .ok (numBinArith (fun x y => x - y) (fun x y => x - y) a b)
  else if op = "*" then .ok (numBinArith (fun x y => x * y) (fun x y => x * y) a b)
  else if op = "/" then numDiv a b
  else .ok (numMin a b)

/-! ### The constants dictionary -/

/-- The `constants` dictionary: insertion-ordered association list. -/
abbrev Env := List (String × NumVal)

/-- Dictionary key lookup (`constants[k]` / `k in constants`). -/
def lookupEnv (env : Env) (k : String) : Option NumVal :=
  match env with
  | [] => none
  | (k2, v) :: rest => if k2 = k then some v else lookupEnv rest k

/-- Dictionary assignment `constants[k] = v`: overwrite in place if the
key is present, otherwise append, preserving insertion order. -/
def insertEnv (env : Env) (k : String) (v : NumVal) : Env :=
  match env with
  | [] => [(k, v)]
  | (k2, v2) :: rest => if k2 = k then (k, v) :: rest else (k2, v2) :: insertEnv rest k v

/-! ### The evaluator (`evaluate_infix` in the source) -/

/-- The token loop of `evaluate_infix`.  The stack head is the most
recently appended value (the right end of the Python deque).  Each token
is classified in source order: digit literal, constants key, OPERATORS
key, otherwise a ValueError.  The constants dictionary is threaded
through unchanged and returned, so that the absence of mutation is a
provable property of the embedding. -/
def runTokens : List String → List NumVal → Env → (Except EvalError (List NumVal)) × Env
  | [], stack, env => (.ok stack, env)
  | t :: rest, stack, env =>
    if pyIsdigit t then runTokens rest (.intV (pyInt t) :: stack) env
    else
      match lookupEnv env t with
      | some v => runTokens rest (v :: stack) env
      | none =>
        if opNames.contains t then
          match stack with
          | b :: a :: stack2 =>
            match applyOp t a b with
            | .ok r => runTokens rest (r :: stack2) env
            | .error e => (.error e, env)
          | _ => (.error .popEmpty, env)
        else (.error (.unknownToken t), env)

/-- Embedding of `evaluate_infix(expression, constants)`: split the
expression on whitespace, run the token loop, then `return stack.pop()`
(an IndexError if the final stack is empty).  The returned dictionary is
the final state of the `constants` argument. -/
def evalExpression (expression : String) (constants : Env) :
    (Except EvalError NumVal) × Env :=
  match runTokens (pySplitWs expression) [] constants with
  | (.ok (top :: _), env2) => (.ok top, env2)
  | (.ok [], env2) => (.error .popEmpty, env2)
  | (.error e, env2) => (.error e, env2)

/-! ### Config values and rendering -/

mutual
/-- A parsed TOML top-level value as seen by `process_data`.  The
`isinstance` dispatch order of the source is: `(int, float)` (which also
catches `bool`, a subclass of `int`), `list`, `dict`, then delimited
string.  `num` therefore covers exactly the values caught by the first
branch. -/
inductive Value where
  | num (v : NumVal)
  | str (s : String)
  | list (xs : ValueList)
  | table (kvs : KVList)

/-- A Python list of values (spelled out so that recursion over nested
values stays structural). -/
inductive ValueList where
  | nil
  | cons (v : Value) (rest : ValueList)

/-- A Python dict of string keys to values, in insertion order. -/
inductive KVList where
  | nil
  | cons (k : String) (v : Value) (rest : KVList)
end

/-- The single-quote character used by Python repr of strings. -/
def squoteC : Char := Char.ofNat 39

mutual
/-- Python `repr(value)` to the depth the pipeline uses it: numbers render
like `str`, strings are wrapped in single quotes (escape sequences inside
the quotes are not modelled; no claim nests a string inside a container),
lists as `[a, b]`, dicts as brace-delimited `k: v` pairs. -/
def pyRepr : Value → String
  | .num v => v.render
  | .str s => String.singleton squoteC ++ s ++ String.singleton squoteC
  | .list xs => "[" ++ joinStr ", " (pyReprList xs) ++ "]"
  | .table kvs => "\x7b" ++ joinStr ", " (pyReprKVs kvs) ++ "\x7d"

def pyReprList : ValueList → List String
  | .nil => []
  | .cons v rest => pyRepr v :: pyReprList rest

def pyReprKVs : KVList → List String
  | .nil => []
  | .cons k v rest =>
    (String.singleton squoteC ++ k ++ String.singleton squoteC ++ ": " ++ pyRepr v)
      :: pyReprKVs rest
end

/-- Python `str(value)`: identical to repr except on strings, which print
without quotes. -/
def pyStr : Value → String
  | .str s => s
  | v => pyRepr v

/-- `str` applied elementwise, as in `map(str, array)`. -/
def pyStrList : ValueList → List String
  | .nil => []
  | .cons v rest => pyStr v :: pyStrList rest

/-- The `"k = v"` items built by `format_table` from `value.items()`. -/
def pyStrKVs : KVList → List String
  | .nil => []
  | .cons k v rest => (k ++ " = " ++ pyStr v) :: pyStrKVs rest

/-- Embedding of `format_list`. -/
def format_list (array : ValueList) : String :=
  "(list " ++ joinStr " " (pyStrList array) ++ ")"

/-- Embedding of `format_table`. -/
def format_table (value : KVList) : String :=
  "table([" ++ joinStr ", " (pyStrKVs value) ++ "])"

/-! ### Name validation -/

/-- First-character class of NAME_REGEX: an underscore or an ASCII
uppercase letter. -/
def isNameStart (c : Char) : Bool := c = '_' || ('A' ≤ c && c ≤ 'Z')

/-- Continuation class of NAME_REGEX: underscore, ASCII letter or digit. -/
def isNameChar (c : Char) : Bool :=
  c = '_' || ('a' ≤ c && c ≤ 'z') || ('A' ≤ c && c ≤ 'Z') || ('0' ≤ c && c ≤ '9')

/-- Whether a character list matches the body of NAME_REGEX,
`[_A-Z][_a-zA-Z0-9]*`, in full. -/
def nameCoreMatch : List Char → Bool
  | [] => false
  | c :: rest => isNameStart c && rest.all isNameChar

/-- Embedding of `validate_name` via `re.match(NAME_REGEX, name)`,
returning whether the check passes.  The regex is anchored with a dollar,
which in Python also matches just before a single trailing newline, so a
matching name followed by one final newline character is accepted as
well. -/
def validate_name (name : String) : Bool :=
  nameCoreMatch name.toList ||
    (name.toList.getLast? = some '\n' && nameCoreMatch name.toList.dropLast)

/-! ### Comment extraction (`remove_comments` in the source) -/

/-- Whether a line contains the opening marker. -/
def hasOpenMarker (line : String) : Bool := hasSubIn "\x7b\x7b!".toList line.toList

/-- Whether a line contains the closing marker. -/
def hasCloseMarker (line : String) : Bool := hasSubIn "\x7d\x7d".toList line.toList

/-- Loop state of `remove_comments`: the cleaned lines, the recorded
comments, the inside-comment flag, the buffered comment lines and the
line index recorded when the current comment block opened (`none` until
the first opening marker, mirroring the Python `None`). -/
structure RCState where
  cleaned : List String
  comments : List (Nat × String)
  insideComment : Bool
  buffer : List String
  startLine : Option Nat
deriving DecidableEq, Repr

/-- One iteration of the `remove_comments` loop on the enumerated line
`(line_number, line)`, in source branch order: an opening marker always
(re)enters comment state; otherwise a closing marker while inside the
comment records the joined, stripped buffer at the remembered start
index; otherwise the line is buffered or copied according to the flag. -/
def rcStep (st : RCState) (ln : Nat × String) : RCState :=
  if hasOpenMarker ln.2 then
    { st with insideComment := true, startLine := some ln.1, buffer := st.buffer ++ [ln.2] }
  else if hasCloseMarker ln.2 && st.insideComment then
    { st with insideComment := false,
              comments := st.comments ++
                [(st.startLine.getD 0, pyStrip (joinStr " " (st.buffer ++ [ln.2])))],
              buffer := [] }
  else if st.insideComment then { st with buffer := st.buffer ++ [ln.2] }
  else { st with cleaned := st.cleaned ++ [ln.2] }

/-- The `remove_comments` loop over the enumerated lines, starting the
enumeration at `n`. -/
def rcRun : Nat → RCState → List String → RCState
  | _, st, [] => st
  | n, st, line :: rest => rcRun (n + 1) (rcStep st (n, line)) rest

/-- Embedding of `remove_comments`, operating on the list of lines
produced by `data.splitlines()`; returns the cleaned lines (joined with
newlines by the source) and the recorded `(start_line, text)` pairs. -/
def remove_comments (lines : List String) : List String × List (Nat × String) :=
  let final := rcRun 0 ⟨[], [], false, [], none⟩ lines
  (final.cleaned, final.comments)

/-! ### The document processor (`process_data` in the source) -/

/-- Error taxonomy of a `process_data` run.  The first three are the
`ValueError`s raised by the source in its own name; `uncaughtEval` is an
evaluator exception that is not a `ValueError` (an `IndexError` or
`ZeroDivisionError`) and therefore escapes the `except ValueError`
handler without being wrapped with the entry name. -/
inductive ProcError where
  | invalidName (name : String)
  | unsupportedValue (name : String)
  | expressionError (name : String) (e : EvalError)
  | uncaughtEval (e : EvalError)
deriving DecidableEq, Repr

/-- Lookup in the `comment_dict` comprehension: the last pair with the
given line number wins, as later dict-comprehension items overwrite
earlier ones. -/
def commentAt (comments : List (Nat × String)) (i : Nat) : Option String :=
  comments.foldl (fun acc p => if p.1 = i then some p.2 else acc) none

/-- Suffix a freshly appended output line with its positional comment
annotation when `comment_dict` holds the current output index. -/
def attachComment (comments : List (Nat × String)) (idx : Nat) (line : String) : String :=
  match commentAt comments idx with
  | some c => line ++ "   \x7b! " ++ c ++ " !\x7d"
  | none => line

/-- Whether a string value is dispatched to the expression branch:
`value.startswith("|") and value.endswith("|")` on the raw, untrimmed
string. -/
def delimitedExpr (s : String) : Bool := pyStartsWith s "|" && pyEndsWith s "|"

/-- `value[1:-1].strip()`: the delimiters stripped and the interior
whitespace-trimmed, giving the expression text. -/
def stripBars (s : String) : String := pyStrip (String.mk ((s.toList.drop 1).dropLast))

/-- One iteration of the `process_data` loop: validate the entry name,
dispatch on the value kind, append the rendered line (with its positional
comment, if any) and update the constants dictionary.  Only the
`ValueError` of the evaluator (`unknownToken`) is caught and wrapped with
the entry name; `popEmpty` and `zeroDiv` escape unwrapped. -/
def processEntry (comments : List (Nat × String)) (lines : List String) (constants : Env)
    (entry : String × Value) : Except ProcError (List String × Env) :=
  if validate_name entry.1 = true then
    match entry.2 with
    | .num v =>
      .ok (lines ++ [attachComment comments lines.length (v.render ++ " -> " ++ entry.1)],
           insertEnv constants entry.1 v)
    | .list xs =>
      .ok (lines ++ [attachComment comments lines.length (format_list xs ++ " -> " ++ entry.1)],
           constants)
    | .table kvs =>
      .ok (lines ++ [attachComment comments lines.length (format_table kvs ++ " -> " ++ entry.1)],
           constants)
    | .str s =>
      if delimitedExpr s then
        match evalExpression (stripBars s) constants with
        | (.ok result, env2) =>
          .ok (lines ++
                [attachComment comments lines.length (result.render ++ " -> " ++ stripBars s)],
               insertEnv env2 entry.1 result)
        | (.error (.unknownToken t), _) => .error (.expressionError entry.1 (.unknownToken t))
        | (.error .popEmpty, _) => .error (.uncaughtEval .popEmpty)
        | (.error .zeroDiv, _) => .error (.uncaughtEval .zeroDiv)
      else .error (.unsupportedValue entry.1)
  else .error (.invalidName entry.1)

/-- The `process_data` loop over the entries, carrying the output lines
and the constants dictionary. -/
def processAux (comments : List (Nat × String)) :
    List (String × Value) → List String → Env → Except ProcError (List String × Env)
  | [], lines, env => .ok (lines, env)
  | e :: rest, lines, env =>
    match processEntry comments lines env e with
    | .error err => .error err
    | .ok (lines2, env2) => processAux comments rest lines2 env2

/-- Embedding of `process_data(data, constants, comments)`: iterate over
the entries in document order starting from empty output.  Returns the
output lines together with the final state of the (mutated) constants
dictionary. -/
def process_data (data : List (String × Value)) (constants : Env)
    (comments : List (Nat × String)) : Except ProcError (List String × Env) :=
  processAux comments data [] constants

/-! ### Spec-side notions used to state the claims -/

/-- Whether processing this entry (successfully) adds a binding to the
constants dictionary: numeric scalars always do, strings do exactly when
they are dispatched to the expression branch, lists and tables never
do. -/
def bindsEntry : String × Value → Bool
  | (_, .num _) => true
  | (_, .str s) => delimitedExpr s
  | (_, .list _) => false
  | (_, .table _) => false

/-- The constants dictionary after the first `n` entries of a run that
starts from an empty dictionary (meaningful whenever that prefix run
succeeds). -/
def envAt (data : List (String × Value)) (comments : List (Nat × String)) (n : Nat) : Env :=
  match process_data (data.take n) [] comments with
  | .ok (_, e) => e
  | .error _ => []

/-- The value an entry binds into the dictionary when processed against
the dictionary state `env`: its own value for a numeric scalar, the
evaluation result for an expression string. -/
def introducedVal (entry : String × Value) (env : Env) : Option NumVal :=
  match entry with
  | (_, .num v) => some v
  | (_, .str s) =>
    if delimitedExpr s then
      match ( evalExpression (stripBars s) env).1 with
      | .ok r => some r
      | .error _ => none
    else none
  | _ => none

/-- A raw document decomposed into comment blocks and plain lines, the
shape described by the claim about balanced, non-nested comment
markers. -/
inductive Segment where
  | plain (line : String)
  | block (openL : String) (mids : List String) (closeL : String)

/-- Well-formedness of a segment: a plain line carries no marker; a block
opens on a line carrying only the opening marker, continues on
marker-free lines and closes on a distinct line carrying only the closing
marker. -/
def segWF : Segment → Bool
  | .plain l => !hasOpenMarker l && !hasCloseMarker l
  | .block o ms c =>
    hasOpenMarker o && !hasCloseMarker o &&
      ms.all (fun m => !hasOpenMarker m && !hasCloseMarker m) &&
      (hasCloseMarker c && !hasOpenMarker c)

/-- The raw lines of one segment. -/
def segLines : Segment → List String
  | .plain l => [l]
  | .block o ms c => o :: (ms ++ [c])

/-- The raw document spanned by a segment list. -/
def docLines (segs : List Segment) : List String := (segs.map segLines).flatten

/-- The cleaned text the claim promises: the input with every line of
each comment block removed. -/
def expectedCleaned : List Segment → List String
  | [] => []
  | .plain l :: rest => l :: expectedCleaned rest
  | .block _ _ _ :: rest => expectedCleaned rest

/-- The comments the claim promises, starting the line numbering at `n`:
one comment per block, recorded at the original index of the opening
line, carrying the space-joined and stripped block text. -/
def expectedComments : Nat → List Segment → List (Nat × String)
  | _, [] => []
  | n, .plain _ :: rest => expectedComments (n + 1) rest
  | n, .block o ms c :: rest =>
    (n, pyStrip (joinStr " " (o :: (ms ++ [c])))) :: expectedComments (n + (ms.length + 2)) rest

/-- The name shape the spec describes, phrased directly on characters: an
underscore or ASCII uppercase first character followed by any run of
underscores, ASCII letters and digits. -/
def specNameMatch (cs : List Char) : Prop :=
  ∃ c rest, cs = c :: rest ∧ (c = '_' ∨ ('A' ≤ c ∧ c ≤ 'Z')) ∧
    ∀ d ∈ rest, d = '_' ∨ ('a' ≤ d ∧ d ≤ 'z') ∨ ('A' ≤ d ∧ d ≤ 'Z') ∨ ('0' ≤ d ∧ d ≤ '9')

/-! ### Shared lemmas about the evaluator and the dictionary -/

theorem runTokens_env_eq (ts : List String) (stack : List NumVal) (env : Env) :
    (runTokens ts stack env).2 = env := by
  induction ts generalizing stack with
  | nil => rfl
  | cons t rest ih =>
    simp only [runTokens]
    split
    · exact ih _
    · split
      · exact ih _
      · split
        · split
          · split
            · exact ih _
            · rfl
          · rfl
        · rfl

theorem evalExpression_env_eq (e : String) (env : Env) :
    ( evalExpression e env).2 = env := by
  have h := runTokens_env_eq (pySplitWs e) [] env
  rcases hr : runTokens (pySplitWs e) [] env with ⟨res, env2⟩
  rw [hr] at h
  simp only at h
  subst h
  cases res with
  | ok s =>
    cases s with
    | nil => simp [evalExpression, hr]
    | cons a b => simp [evalExpression, hr]
  | error err => simp [evalExpression, hr]

theorem lookupEnv_insertEnv_self (env : Env) (k : String) (v : NumVal) :
    lookupEnv (insertEnv env k v) k = some v := by
  induction env with
  | nil => simp [insertEnv, lookupEnv]
  | cons p rest ih =>
    obtain ⟨k2, v2⟩ := p
    by_cases h : k2 = k <;> simp [insertEnv, lookupEnv, h, ih]

theorem lookupEnv_insertEnv_ne (env : Env) {k k2 : String} (v : NumVal) (h : k2 ≠ k) :
    lookupEnv (insertEnv env k v) k2 = lookupEnv env k2 := by
  have hne : k ≠ k2 := Ne.symm h
  induction env with
  | nil => simp [insertEnv, lookupEnv, hne]
  | cons p rest ih =>
    obtain ⟨k3, v3⟩ := p
    by_cases h3 : k3 = k
    · subst h3
      simp [insertEnv, lookupEnv, hne]
    · simp [insertEnv, lookupEnv, h3, ih]

theorem lookupEnv_insertEnv_isSome (env : Env) (k : String) (v : NumVal) (k2 : String) :
    (lookupEnv (insertEnv env k v) k2).isSome = true ↔
      (k2 = k ∨ (lookupEnv env k2).isSome = true) := by
  by_cases h : k2 = k
  · subst h; simp [lookupEnv_insertEnv_self]
  · simp [lookupEnv_insertEnv_ne env v h, h]

/-! ### Shared lemmas about the comment extractor -/

theorem rcRun_append (l1 l2 : List String) (n : Nat) (st : RCState) :
    rcRun n st (l1 ++ l2) = rcRun (n + l1.length) (rcRun n st l1) l2 := by
  induction l1 generalizing n st with
  | nil => simp [rcRun]
  | cons a t ih =>
    simp only [List.cons_append, rcRun, List.length_cons]
    have h := ih (n + 1) (rcStep st (n, a))
    rw [show n + (t.length + 1) = n + 1 + t.length by omega]
    exact h

theorem rcRun_mids (ms : List String)
    (h : ∀ m ∈ ms, hasOpenMarker m = false ∧ hasCloseMarker m = false) :
    ∀ (n : Nat) (cl : List String) (cm : List (Nat × String)) (buf : List String)
      (sn : Option Nat),
      rcRun n ⟨cl, cm, true, buf, sn⟩ ms = ⟨cl, cm, true, buf ++ ms, sn⟩ := by
  induction ms with
  | nil => intro n cl cm buf sn; simp [rcRun]
  | cons m rest ih =>
    intro n cl cm buf sn
    obtain ⟨ho, hc⟩ := h m (by simp)
    simp only [rcRun]
    have hstep : rcStep ⟨cl, cm, true, buf, sn⟩ (n, m) = ⟨cl, cm, true, buf ++ [m], sn⟩ := by
      simp [rcStep, ho, hc]
    rw [hstep, ih (fun x hx => h x (by simp [hx]))]
    simp

theorem rcRun_segments (segs : List Segment) (h : ∀ s ∈ segs, segWF s = true) :
    ∀ (n : Nat) (cl : List String) (cm : List (Nat × String)) (sn : Option Nat),
      ∃ sl, rcRun n ⟨cl, cm, false, [], sn⟩ (docLines segs) =
        ⟨cl ++ expectedCleaned segs, cm ++ expectedComments n segs, false, [], sl⟩ := by
  induction segs with
  | nil =>
    intro n cl cm sn
    exact ⟨sn, by simp [docLines, rcRun, expectedCleaned, expectedComments]⟩
  | cons s rest ih =>
    intro n cl cm sn
    have hrest : ∀ x ∈ rest, segWF x = true := fun x hx => h x (by simp [hx])
    cases s with
    | plain l =>
      have hwf := h (.plain l) (by simp)
      simp only [segWF, Bool.and_eq_true, Bool.not_eq_true'] at hwf
      obtain ⟨ho, hc⟩ := hwf
      have hdoc : docLines (Segment.plain l :: rest) = l :: docLines rest := by
        simp [docLines, segLines]
      rw [hdoc]
      simp only [rcRun]
      have hstep : rcStep ⟨cl, cm, false, [], sn⟩ (n, l) = ⟨cl ++ [l], cm, false, [], sn⟩ := by
        simp [rcStep, ho, hc]
      rw [hstep]
      obtain ⟨sl, hsl⟩ := ih hrest (n + 1) (cl ++ [l]) cm sn
      refine ⟨sl, ?_⟩
      rw [hsl]
      simp [expectedCleaned, expectedComments]
    | block o ms c =>
      have hwf := h (.block o ms c) (by simp)
      simp only [segWF, Bool.and_eq_true, Bool.not_eq_true', List.all_eq_true] at hwf
      obtain ⟨⟨⟨ho, hoc⟩, hms⟩, hcc, hco⟩ := hwf
      have hms2 : ∀ m ∈ ms, hasOpenMarker m = false ∧ hasCloseMarker m = false := by
        intro m hm
        have h3 := hms m hm
        simp only [Bool.and_eq_true, Bool.not_eq_true'] at h3
        exact h3
      have hdoc : docLines (Segment.block o ms c :: rest) =
          o :: (ms ++ (c :: docLines rest)) := by
        simp [docLines, segLines]
      rw [hdoc]
      simp only [rcRun]
      have hstep : rcStep ⟨cl, cm, false, [], sn⟩ (n, o) = ⟨cl, cm, true, [o], some n⟩ := by
        simp [rcStep, ho]
      rw [hstep, rcRun_append ms (c :: docLines rest), rcRun_mids ms hms2]
      simp only [rcRun]
      have hstep2 : rcStep ⟨cl, cm, true, [o] ++ ms, some n⟩ (n + 1 + ms.length, c) =
          ⟨cl, cm ++ [(n, pyStrip (joinStr " " (o :: (ms ++ [c]))))], false, [], some n⟩ := by
        simp [rcStep, hco, hcc]
      rw [hstep2]
      obtain ⟨sl, hsl⟩ := ih hrest (n + 1 + ms.length + 1) cl
        (cm ++ [(n, pyStrip (joinStr " " (o :: (ms ++ [c]))))]) (some n)
      refine ⟨sl, ?_⟩
      rw [hsl]
      have harr : n + 1 + ms.length + 1 = n + (ms.length + 2) := by omega
      simp [expectedCleaned, expectedComments, harr]

/-! ### Shared lemmas about the document processor -/

theorem processAux_append (comments : List (Nat × String)) (l1 l2 : List (String × Value))
    (lines : List String) (env : Env) :
    processAux comments (l1 ++ l2) lines env =
      match processAux comments l1 lines env with
      | .error e => .error e
      | .ok (lines2, env2) => processAux comments l2 lines2 env2 := by
  induction l1 generalizing lines env with
  | nil => simp [processAux]
  | cons e t ih =>
    simp only [List.cons_append, processAux]
    cases processEntry comments lines env e with
    | error err => rfl
    | ok st =>
      obtain ⟨lines2, env2⟩ := st
      exact ih lines2 env2

theorem processAux_prefix_ok (comments : List (Nat × String)) (data : List (String × Value))
    (lines : List String) (env : Env) {r : List String × Env}
    (hok : processAux comments data lines env = .ok r) (n : Nat) :
    ∃ r1, processAux comments (data.take n) lines env = .ok r1 := by
  have h := processAux_append comments (data.take n) (data.drop n) lines env
  rw [List.take_append_drop] at h
  rw [hok] at h
  cases hp : processAux comments (data.take n) lines env with
  | ok r1 => exact ⟨r1, rfl⟩
  | error e =>
    rw [hp] at h
    simp at h

theorem processAux_take_succ (comments : List (Nat × String)) (data : List (String × Value))
    (lines : List String) (env : Env) (n : Nat) {e : String × Value}
    (he : data[n]? = some e) :
    processAux comments (data.take (n + 1)) lines env =
      match processAux comments (data.take n) lines env with
      | .error err => .error err
      | .ok (lines2, env2) => processEntry comments lines2 env2 e := by
  rw [List.take_succ, he]
  simp only [Option.toList_some]
  rw [processAux_append]
  cases processAux comments (data.take n) lines env with
  | error err => rfl
  | ok st =>
    obtain ⟨lines2, env2⟩ := st
    simp only [processAux]
    cases processEntry comments lines2 env2 e with
    | error err => rfl
    | ok st2 =>
      obtain ⟨l3, e3⟩ := st2
      rfl

theorem processEntry_env_of_ok (comments : List (Nat × String)) (lines : List String)
    (env : Env) (entry : String × Value) {lines2 : List String} {env2 : Env}
    (h : processEntry comments lines env entry = .ok (lines2, env2)) :
    (bindsEntry entry = false → env2 = env) ∧
    (bindsEntry entry = true →
      ∃ v, introducedVal entry env = some v ∧ env2 = insertEnv env entry.1 v) := by
  obtain ⟨key, value⟩ := entry
  by_cases hv : validate_name key = true
  · cases value with
    | num v =>
      simp only [processEntry, hv, if_pos, Except.ok.injEq, Prod.mk.injEq] at h
      refine ⟨fun hb => by simp [bindsEntry] at hb, fun _ => ⟨v, ?_, h.2.symm⟩⟩
      simp [introducedVal]
    | list xs =>
      simp only [processEntry, hv, if_pos, Except.ok.injEq, Prod.mk.injEq] at h
      exact ⟨fun _ => h.2.symm, fun hb => by simp [bindsEntry] at hb⟩
    | table kvs =>
      simp only [processEntry, hv, if_pos, Except.ok.injEq, Prod.mk.injEq] at h
      exact ⟨fun _ => h.2.symm, fun hb => by simp [bindsEntry] at hb⟩
    | str s =>
      by_cases hd : delimitedExpr s = true
      · have henv := evalExpression_env_eq (stripBars s) env
        rcases hE : evalExpression (stripBars s) env with ⟨res, envE⟩
        rw [hE] at henv
        simp only at henv
        subst henv
        cases res with
        | ok rv =>
          simp only [processEntry, hv, if_pos, hd, if_true, hE, Except.ok.injEq,
            Prod.mk.injEq] at h
          refine ⟨fun hb => by simp [bindsEntry, hd] at hb, fun _ => ⟨rv, ?_, h.2.symm⟩⟩
          simp [introducedVal, hd, hE]
        | error err =>
          cases err with
          | unknownToken t => simp [processEntry, hv, hd, hE] at h
          | popEmpty => simp [processEntry, hv, hd, hE] at h
          | zeroDiv => simp [processEntry, hv, hd, hE] at h
      · simp [processEntry, hv, hd] at h
  · simp [processEntry, hv] at h

theorem take_names_ne (l : List (String × Value)) (hnd : (l.map Prod.fst).Nodup) :
    ∀ (n : Nat) (e : String × Value), l[n]? = some e → ∀ e2 ∈ l.take n, e2.1 ≠ e.1 := by
  induction l with
  | nil => intro n e h; simp at h
  | cons x t ih =>
    intro n e hget e2 hmem
    cases n with
    | zero => simp at hmem
    | succ m =>
      simp only [List.getElem?_cons_succ] at hget
      rw [List.take_succ_cons] at hmem
      rcases List.mem_cons.mp hmem with heq | hmem2
      · subst heq
        have he : e ∈ t := List.getElem?_mem hget
        have hmap : e.1 ∈ t.map Prod.fst := List.mem_map.mpr ⟨e, he, rfl⟩
        have hx : e2.1 ∉ t.map Prod.fst := (List.nodup_cons.mp hnd).1
        intro hEq
        rw [hEq] at hx
        exact hx hmap
      · exact ih (List.nodup_cons.mp hnd).2 m e hget e2 hmem2

theorem mem_take_mono {l : List (String × Value)} {n i : Nat} (h : n ≤ i)
    {e2 : String × Value} (hm : e2 ∈ l.take n) : e2 ∈ l.take i := by
  have heq : l.take n = (l.take i).take n := by
    rw [List.take_take, Nat.min_eq_left h]
  rw [heq] at hm
  exact List.take_subset _ _ hm

theorem envAt_domain (data : List (String × Value)) (comments : List (Nat × String))
    {rF : List String × Env}
    (hok : process_data data [] comments = .ok rF) :
    ∀ n, n ≤ data.length →
      ∀ k, (lookupEnv (envAt data comments n) k).isSome = true ↔
        ∃ e ∈ data.take n, e.1 = k ∧ bindsEntry e = true := by
  intro n
  induction n with
  | zero =>
    intro _ k
    simp [envAt, process_data, processAux, lookupEnv]
  | succ m ih =>
    intro hlen k
    have hm1 : m < data.length := Nat.lt_of_succ_le hlen
    have hm : m ≤ data.length := le_of_lt hm1
    obtain ⟨e, he⟩ : ∃ e, data[m]? = some e := ⟨_, List.getElem?_eq_getElem hm1⟩
    obtain ⟨⟨lm, em⟩, hpm⟩ := processAux_prefix_ok comments data [] [] hok m
    obtain ⟨⟨lm1, em1⟩, hpm1⟩ := processAux_prefix_ok comments data [] [] hok (m + 1)
    have hstep := processAux_take_succ comments data [] [] m he
    rw [hpm, hpm1] at hstep
    have hee := processEntry_env_of_ok comments lm em e hstep.symm
    have hEm : envAt data comments m = em := by simp [envAt, process_data, hpm]
    have hEm1 : envAt data comments (m + 1) = em1 := by simp [envAt, process_data, hpm1]
    rw [hEm1, List.take_succ, he]
    simp only [Option.toList_some]
    cases hb : bindsEntry e with
    | false =>
      rw [hee.1 hb, ← hEm, ih hm k]
      constructor
      · rintro ⟨e2, h2, hp⟩
        exact ⟨e2, by simp [List.mem_append, h2], hp⟩
      · rintro ⟨e2, hmem, hp⟩
        rcases List.mem_append.mp hmem with h2 | h2
        · exact ⟨e2, h2, hp⟩
        · rw [List.mem_singleton.mp h2] at hp
          rw [hb] at hp
          exact absurd hp.2 (by simp)
    | true =>
      obtain ⟨v, hiv, hins⟩ := hee.2 hb
      rw [hins, ← hEm, lookupEnv_insertEnv_isSome, ih hm k]
      constructor
      · rintro (hk | ⟨e2, h2, hp⟩)
        · exact ⟨e, by simp [List.mem_append], hk.symm, hb⟩
        · exact ⟨e2, by simp [List.mem_append, h2], hp⟩
      · rintro ⟨e2, hmem, hp⟩
        rcases List.mem_append.mp hmem with h2 | h2
        · exact Or.inr ⟨e2, h2, hp⟩
        · rw [List.mem_singleton.mp h2] at hp
          exact Or.inl hp.1.symm

theorem envAt_step_persist (data : List (String × Value)) (comments : List (Nat × String))
    (hnd : (data.map Prod.fst).Nodup) {rF : List String × Env}
    (hok : process_data data [] comments = .ok rF) :
    ∀ m, m < data.length → ∀ k v, lookupEnv (envAt data comments m) k = some v →
      lookupEnv (envAt data comments (m + 1)) k = some v := by
  intro m hm1 k v hkv
  obtain ⟨e, he⟩ : ∃ e, data[m]? = some e := ⟨_, List.getElem?_eq_getElem hm1⟩
  obtain ⟨⟨lm, em⟩, hpm⟩ := processAux_prefix_ok comments data [] [] hok m
  obtain ⟨⟨lm1, em1⟩, hpm1⟩ := processAux_prefix_ok comments data [] [] hok (m + 1)
  have hstep := processAux_take_succ comments data [] [] m he
  rw [hpm, hpm1] at hstep
  have hee := processEntry_env_of_ok comments lm em e hstep.symm
  have hEm : envAt data comments m = em := by simp [envAt, process_data, hpm]
  have hEm1 : envAt data comments (m + 1) = em1 := by simp [envAt, process_data, hpm1]
  cases hb : bindsEntry e with
  | false =>
    rw [hEm1, hee.1 hb, ← hEm]
    exact hkv
  | true =>
    obtain ⟨v2, hiv, hins⟩ := hee.2 hb
    have hkdom : (lookupEnv (envAt data comments m) k).isSome = true := by
      rw [hkv]; rfl
    obtain ⟨e2, hmem, hp⟩ := (envAt_domain data comments hok m (le_of_lt hm1) k).mp hkdom
    have hne : e2.1 ≠ e.1 := take_names_ne data hnd m e he e2 hmem
    have hkne : k ≠ e.1 := by rw [← hp.1]; exact hne
    rw [hEm1, hins, lookupEnv_insertEnv_ne em v2 hkne, ← hEm]
    exact hkv

theorem envAt_le_persist (data : List (String × Value)) (comments : List (Nat × String))
    (hnd : (data.map Prod.fst).Nodup) {rF : List String × Env}
    (hok : process_data data [] comments = .ok rF) :
    ∀ n m, n ≤ m → m ≤ data.length → ∀ k v,
      lookupEnv (envAt data comments n) k = some v →
      lookupEnv (envAt data comments m) k = some v := by
  intro n m hnm
  induction m, hnm using Nat.le_induction with
  | base => intro _ k v h; exact h
  | succ m hm ih =>
    intro hlen k v h
    exact envAt_step_persist data comments hnd hok m (by omega) k v
      (ih (by omega) k v h)

theorem envAt_value (data : List (String × Value)) (comments : List (Nat × String))
    (hnd : (data.map Prod.fst).Nodup) {rF : List String × Env}
    (hok : process_data data [] comments = .ok rF) :
    ∀ i e, data[i]? = some e → bindsEntry e = true →
      ∀ n, i < n → n ≤ data.length →
        lookupEnv (envAt data comments n) e.1 = introducedVal e (envAt data comments i) := by
  intro i e he hb n hin hnlen
  obtain ⟨⟨lm, em⟩, hpm⟩ := processAux_prefix_ok comments data [] [] hok i
  obtain ⟨⟨lm1, em1⟩, hpm1⟩ := processAux_prefix_ok comments data [] [] hok (i + 1)
  have hstep := processAux_take_succ comments data [] [] i he
  rw [hpm, hpm1] at hstep
  have hee := processEntry_env_of_ok comments lm em e hstep.symm
  obtain ⟨v, hiv, hins⟩ := hee.2 hb
  have hEi : envAt data comments i = em := by simp [envAt, process_data, hpm]
  have hEi1 : envAt data comments (i + 1) = em1 := by simp [envAt, process_data, hpm1]
  have hbase : lookupEnv (envAt data comments (i + 1)) e.1 = some v := by
    rw [hEi1, hins]
    exact lookupEnv_insertEnv_self em e.1 v
  have hpersist := envAt_le_persist data comments hnd hok (i + 1) n hin hnlen e.1 v hbase
  rw [hpersist, hEi, hiv]

/-! ### Shared lemmas about token classification and name validation -/

theorem runTokens_fails_of_bad (t : String) :
    ∀ (ts : List String) (stack : List NumVal) (env : Env), t ∈ ts →
      pyIsdigit t = false → lookupEnv env t = none → opNames.contains t = false →
      ∃ err, (runTokens ts stack env).1 = .error err := by
  intro ts
  induction ts with
  | nil => intro stack env h _ _ _; simp at h
  | cons u rest ih =>
    intro stack env hmem hdig hlook hop
    rcases List.mem_cons.mp hmem with heq | hmem2
    · rw [heq] at hdig hlook hop
      simp only [runTokens, hdig, Bool.false_eq_true, if_false, hlook, hop]
      exact ⟨.unknownToken u, rfl⟩
    · simp only [runTokens]
      by_cases hd : pyIsdigit u = true
      · rw [if_pos hd]
        exact ih (.intV (pyInt u) :: stack) env hmem2 hdig hlook hop
      · rw [if_neg hd]
        cases hl : lookupEnv env u with
        | some v =>
          dsimp only
          exact ih (v :: stack) env hmem2 hdig hlook hop
        | none =>
          dsimp only
          by_cases ho : opNames.contains u = true
          · rw [if_pos ho]
            cases stack with
            | nil => exact ⟨.popEmpty, rfl⟩
            | cons b s2 =>
              cases s2 with
              | nil => exact ⟨.popEmpty, rfl⟩
              | cons a s3 =>
                dsimp only
                cases hap : applyOp u a b with
                | ok r =>
                  dsimp only
                  exact ih (r :: s3) env hmem2 hdig hlook hop
                | error err =>
                  exact ⟨err, rfl⟩
          · rw [if_neg ho]
            exact ⟨.unknownToken u, rfl⟩

theorem evalExpression_fails_of_bad (expression : String) (env : Env) (t : String)
    (hmem : t ∈ pySplitWs expression) (hdig : pyIsdigit t = false)
    (hlook : lookupEnv env t = none) (hop : opNames.contains t = false) :
    ∃ err, ( evalExpression expression env).1 = .error err := by
  obtain ⟨err, herr⟩ :=
    runTokens_fails_of_bad t (pySplitWs expression) [] env hmem hdig hlook hop
  rcases hr : runTokens (pySplitWs expression) [] env with ⟨res, env2⟩
  rw [hr] at herr
  simp only at herr
  subst herr
  exact ⟨err, by simp [evalExpression, hr]⟩

theorem nameCoreMatch_iff (cs : List Char) : nameCoreMatch cs = true ↔ specNameMatch cs := by
  cases cs with
  | nil =>
    simp [nameCoreMatch, specNameMatch]
  | cons c rest =>
    simp only [nameCoreMatch, Bool.and_eq_true, List.all_eq_true]
    constructor
    · rintro ⟨h1, h2⟩
      refine ⟨c, rest, rfl, ?_, ?_⟩
      · simp only [isNameStart, Bool.or_eq_true, Bool.and_eq_true, decide_eq_true_eq] at h1
        exact h1
      · intro d hd
        have h3 := h2 d hd
        simp only [isNameChar, Bool.or_eq_true, Bool.and_eq_true, decide_eq_true_eq] at h3
        tauto
    · rintro ⟨c2, rest2, heq, h1, h2⟩
      injection heq with hc hr
      subst hc
      subst hr
      constructor
      · simp only [isNameStart, Bool.or_eq_true, Bool.and_eq_true, decide_eq_true_eq]
        exact h1
      · intro d hd
        have h3 := h2 d hd
        simp only [isNameChar, Bool.or_eq_true, Bool.and_eq_true, decide_eq_true_eq]
        tauto

theorem concat_newline_iff (l : List Char) :
    (l.getLast? = some '\n' ∧ nameCoreMatch l.dropLast = true) ↔
      ∃ cs, l = cs ++ ['\n'] ∧ nameCoreMatch cs = true := by
  induction l using List.reverseRecOn with
  | nil => simp
  | append_singleton xs x ih =>
    constructor
    · rintro ⟨h1, h2⟩
      rw [List.getLast?_concat] at h1
      rw [List.dropLast_concat] at h2
      refine ⟨xs, ?_, h2⟩
      rw [Option.some.injEq] at h1
      rw [h1]
    · rintro ⟨cs, heq, hm⟩
      have hx : x = '\n' := by
        have := congrArg List.getLast? heq
        rw [List.getLast?_concat, List.getLast?_concat] at this
        exact Option.some.injEq _ _ ▸ this |>.symm ▸ rfl
      have hxs : xs = cs := by
        have := congrArg List.dropLast heq
        rwa [List.dropLast_concat, List.dropLast_concat] at this
      subst hx
      subst hxs
      exact ⟨List.getLast?_concat _, by rwa [List.dropLast_concat]⟩

theorem validate_name_iff (name : String) :
    validate_name name = true ↔
      (specNameMatch name.toList ∨
        ∃ cs, name.toList = cs ++ ['\n'] ∧ specNameMatch cs) := by
  unfold validate_name
  rw [Bool.or_eq_true, Bool.and_eq_true, nameCoreMatch_iff, decide_eq_true_eq]
  constructor
  · rintro (h | ⟨h1, h2⟩)
    · exact Or.inl h
    · obtain ⟨cs, heq, hm⟩ := (concat_newline_iff name.toList).mp ⟨h1, h2⟩
      exact Or.inr ⟨cs, heq, (nameCoreMatch_iff cs).mp hm⟩
  · rintro (h | ⟨cs, heq, hm⟩)
    · exact Or.inl h
    · exact Or.inr ((concat_newline_iff name.toList).mpr
        ⟨cs, heq, (nameCoreMatch_iff cs).mpr hm⟩)

/-! ### Claim theorems -/

/-- C1: processing the entries Key1:10, Key2:20, Key3:[1,2,3],
Key4:"|Key1 Key2 +|" in that order, from an empty constants environment
and with no comments, produces exactly the four claimed output lines; in
particular the expression entry is labelled with the stripped expression
text, not the entry name, and the final environment binds Key1, Key2 and
Key4. -/
theorem C1_end_to_end :
    process_data
      [("Key1", .num (.intV 10)), ("Key2", .num (.intV 20)),
       ("Key3", .list (.cons (.num (.intV 1)) (.cons (.num (.intV 2))
          (.cons (.num (.intV 3)) .nil)))),
       ("Key4", .str "|Key1 Key2 +|")] [] [] =
    .ok (["10 -> Key1", "20 -> Key2", "(list 1 2 3) -> Key3", "30 -> Key1 Key2 +"],
         [("Key1", .intV 10), ("Key2", .intV 20), ("Key4", .intV 30)]) := rfl

/-- C2 counterexample: a single line carrying both markers is a balanced,
non-nested comment block, yet the extractor records no comment for it (the
opening-marker branch fires and the block is never closed, so the buffered
text is silently dropped), refuting the claim that every such block yields
exactly one recorded comment. -/
theorem C2_counterexample :
    remove_comments ["\x7b\x7b! hi \x7d\x7d"] = ([], []) ∧
    hasOpenMarker "\x7b\x7b! hi \x7d\x7d" = true ∧
    hasCloseMarker "\x7b\x7b! hi \x7d\x7d" = true := ⟨rfl, rfl, rfl⟩

/-- C2 (amended): for raw text decomposing into marker-free plain lines
and comment blocks whose opening line carries only the opening marker,
whose interior lines carry no marker, and whose closing marker sits on a
later line carrying no opening marker, the extractor returns the plain
lines in order (every block line removed) and exactly one comment per
block, recorded at the original index of the opening line of the block. -/
theorem C2_comment_extraction (segs : List Segment) (h : ∀ s ∈ segs, segWF s = true) :
    remove_comments (docLines segs) = (expectedCleaned segs, expectedComments 0 segs) := by
  obtain ⟨sl, hsl⟩ := rcRun_segments segs h 0 [] [] none
  simp [remove_comments, hsl]

/-- C2 witness: the amended theorem applied to the document of the unit
test: one plain line, one three-line block, one plain line. -/
theorem C2_comment_extraction_witness :
    remove_comments ["Key1 = 10", "\x7b\x7b! ", "This is a comment ", "\x7d\x7d", "Key2 = 20"] =
      (["Key1 = 10", "Key2 = 20"], [(1, "\x7b\x7b!  This is a comment  \x7d\x7d")]) := by
  have h := C2_comment_extraction
    [.plain "Key1 = 10", .block "\x7b\x7b! " ["This is a comment "] "\x7d\x7d",
     .plain "Key2 = 20"] (by decide)
  exact h

/-- C3 counterexample: the string value " |1| " is delimiter-bracketed
after trimming, yet the processor aborts with an unsupported-value error,
because the source tests startswith and endswith on the raw, untrimmed
string. -/
theorem C3_counterexample :
    process_data [("K", .str " |1| ")] [] [] = .error (.unsupportedValue "K") ∧
    pyStartsWith (pyStrip " |1| ") "|" = true ∧
    pyEndsWith (pyStrip " |1| ") "|" = true := ⟨rfl, rfl, rfl⟩

/-- C3 (amended): a string entry counts as an expression exactly when the
raw string itself starts and ends with the delimiter bar (no trimming
before the test); every such entry is dispatched to the expression branch
and never aborts with an unsupported-value error, while every other
string entry does abort with an unsupported-value error. -/
theorem C3_raw_delimiter_dispatch :
    ∀ (name s : String) (comments : List (Nat × String)) (lines : List String) (env : Env),
      validate_name name = true →
      ((delimitedExpr s = false →
          processEntry comments lines env (name, .str s) = .error (.unsupportedValue name)) ∧
       (delimitedExpr s = true →
          processEntry comments lines env (name, .str s) ≠ .error (.unsupportedValue name))) := by
  intro name s comments lines env hv
  constructor
  · intro hd
    simp [processEntry, hv, hd]
  · intro hd
    rcases hE : evalExpression (stripBars s) env with ⟨res, env2⟩
    cases res with
    | ok r => simp [processEntry, hv, hd, hE]
    | error err => cases err <;> simp [processEntry, hv, hd, hE]

/-- C3 witness: a plain string aborts with the unsupported-value error; a
bar-delimited string does not. -/
theorem C3_raw_delimiter_dispatch_witness :
    processEntry [] [] [] ("K", .str "x") = .error (.unsupportedValue "K") ∧
    processEntry [] [] [] ("K", .str "|1|") ≠ .error (.unsupportedValue "K") :=
  ⟨(C3_raw_delimiter_dispatch "K" "x" [] [] [] (by decide)).1 (by decide),
   (C3_raw_delimiter_dispatch "K" "|1|" [] [] [] (by decide)).2 (by decide)⟩

/-- C4 counterexample: the claim quantifies over every environment, but an
environment that binds the token as a key preempts the operator branch:
evaluating the single token percent against an environment with key
percent succeeds instead of failing with an unknown-token error. -/
theorem C4_counterexample :
    ( evalExpression "%" [("%", NumVal.intV 1)]).1 = .ok (.intV 1) ∧
    opNames.contains "%" = false ∧ pyIsdigit "%" = false := ⟨rfl, rfl, rfl⟩

/-- C4 (amended): for every environment, a token stream containing a
token that is not a non-negative integer literal, not a key of the
environment, and not one of the five operator symbols makes evaluation
fail with some evaluator error (the unknown-token error when evaluation
reaches the token; an earlier stack underflow or zero division may
preempt it). -/
theorem C4_unknown_token_failure :
    ∀ (expression : String) (env : Env) (t : String),
      t ∈ pySplitWs expression → pyIsdigit t = false → lookupEnv env t = none →
      opNames.contains t = false →
      ∃ err, ( evalExpression expression env).1 = .error err :=
  fun expression env t hmem hdig hlook hop =>
    evalExpression_fails_of_bad expression env t hmem hdig hlook hop

/-- C4 witness: the stream 5 percent fails against the empty
environment. -/
theorem C4_unknown_token_failure_witness :
    ∃ err, ( evalExpression "5 %" []).1 = .error err :=
  C4_unknown_token_failure "5 %" [] "%" (by decide) (by decide) rfl (by decide)

/-- C5 counterexample: the expression entry KeyA with token stream +
underflows the stack; the run aborts with the uncaught pop-from-empty
error (a Python IndexError), not with a wrapped expression error carrying
the entry name KeyA. -/
theorem C5_counterexample :
    process_data [("KeyA", .str "|+|")] [] [] = .error (.uncaughtEval .popEmpty) := rfl

/-- C5 (amended): an unknown-token failure (a ValueError) is caught and
wrapped with the owning entry name, but a stack-underflow failure (the
IndexError raised by deque.pop) escapes the except-ValueError handler and
aborts the run without the entry name attached. -/
theorem C5_error_wrapping :
    ∀ (name s : String) (comments : List (Nat × String)) (lines : List String) (env : Env),
      validate_name name = true → delimitedExpr s = true →
      ((∀ t, ( evalExpression (stripBars s) env).1 = .error (.unknownToken t) →
        processEntry comments lines env (name, .str s) =
          .error (.expressionError name (.unknownToken t))) ∧
       (( evalExpression (stripBars s) env).1 = .error .popEmpty →
        processEntry comments lines env (name, .str s) = .error (.uncaughtEval .popEmpty))) := by
  intro name s comments lines env hv hd
  rcases hE : evalExpression (stripBars s) env with ⟨res, env2⟩
  constructor
  · intro t hres
    simp only at hres
    subst hres
    simp [processEntry, hv, hd, hE]
  · intro hres
    simp only at hres
    subst hres
    simp [processEntry, hv, hd, hE]

/-- C5 witness: an underflowing entry aborts unwrapped; an unknown-token
entry aborts wrapped with its entry name. -/
theorem C5_error_wrapping_witness :
    processEntry [] [] [] ("KeyA", .str "|+|") = .error (.uncaughtEval .popEmpty) ∧
    processEntry [] [] [] ("KeyB", .str "|zzz|") =
      .error (.expressionError "KeyB" (.unknownToken "zzz")) :=
  ⟨(C5_error_wrapping "KeyA" "|+|" [] [] [] (by decide) (by decide)).2 rfl,
   (C5_error_wrapping "KeyB" "|zzz|" [] [] [] (by decide) (by decide)).1 "zzz" rfl⟩

/-- C6: for a run over uniquely named entries that completes without
error and starts from an empty environment, after the first n entries the
prefix run succeeds and the environment contains a binding for a key
exactly when some numeric-scalar or expression entry among the first n
carries that name (lists and tables bind nothing); every binding persists
unchanged to all later steps of the run (the environment only grows); an
entry that binds is absent from the environment at every step up to and
including its own position (its binding is visible only to strictly later
entries); and the value bound for an entry is exactly the one it
introduced against the environment state at its own position. -/
theorem C6_environment_monotonicity (data : List (String × Value))
    (comments : List (Nat × String)) (hnd : (data.map Prod.fst).Nodup)
    (hok : ∃ r, process_data data [] comments = .ok r) :
    ∀ n, n ≤ data.length →
      ((∃ r1, process_data (data.take n) [] comments = .ok r1) ∧
       (∀ k, (lookupEnv (envAt data comments n) k).isSome = true ↔
          ∃ e ∈ data.take n, e.1 = k ∧ bindsEntry e = true) ∧
       (∀ m, n ≤ m → m ≤ data.length → ∀ k v,
          lookupEnv (envAt data comments n) k = some v →
          lookupEnv (envAt data comments m) k = some v) ∧
       (∀ i e, n ≤ i → data[i]? = some e → bindsEntry e = true →
          lookupEnv (envAt data comments n) e.1 = none) ∧
       (∀ i e, i < n → data[i]? = some e → bindsEntry e = true →
          lookupEnv (envAt data comments n) e.1 =
            introducedVal e (envAt data comments i))) := by
  obtain ⟨rF, hokF⟩ := hok
  intro n hn
  refine ⟨processAux_prefix_ok comments data [] [] hokF n,
          envAt_domain data comments hokF n hn,
          fun m hnm hml => envAt_le_persist data comments hnd hokF n m hnm hml,
          ?_,
          fun i e hi he hb => envAt_value data comments hnd hokF i e he hb n hi hn⟩
  intro i e hni he hb
  cases hlk : lookupEnv (envAt data comments n) e.1 with
  | none => rfl
  | some v =>
    have hsome : (lookupEnv (envAt data comments n) e.1).isSome = true := by
      rw [hlk]; rfl
    obtain ⟨e2, hmem, hp⟩ := (envAt_domain data comments hokF n hn e.1).mp hsome
    have hmem2 : e2 ∈ data.take i := mem_take_mono hni hmem
    exact absurd hp.1 (take_names_ne data hnd i e he e2 hmem2)

/-- C6 witness: in the three-entry sample run the binding of Key1 made at
step one persists to step two, by the monotonicity part of the claim
theorem applied at n equal to one. -/
theorem C6_environment_monotonicity_witness :
    lookupEnv (envAt
      [("Key1", Value.num (.intV 10)), ("Key2", Value.num (.intV 20)),
       ("Key4", Value.str "|Key1 Key2 +|")] [] 2) "Key1" = some (.intV 10) := by
  have h := C6_environment_monotonicity
    [("Key1", Value.num (.intV 10)), ("Key2", Value.num (.intV 20)),
     ("Key4", Value.str "|Key1 Key2 +|")] [] (by decide) ⟨_, rfl⟩ 1 (by decide)
  obtain ⟨-, -, hpersist, -, -⟩ := h
  exact hpersist 2 (by omega) (by decide) "Key1" (.intV 10) rfl

/-- C7 counterexample: the name consisting of the letter A followed by a
newline character is accepted by the validator, although the newline is
not in the pattern character run, because the dollar anchor of the Python
regex also matches just before a single trailing newline; so the
validator does not accept exactly the names of the claimed shape. -/
theorem C7_counterexample :
    validate_name "A\n" = true ∧ nameCoreMatch "A\n".toList = false := by decide

/-- C7 (amended): the validator accepts exactly the names matching the
pattern (underscore or uppercase first character, then any run of
underscores, letters and digits) or such a name followed by one trailing
newline character; it accepts the valid sample and rejects the two
invalid samples, and any rejected entry name aborts the run with the
invalid-name error before the entry value is inspected. -/
theorem C7_name_validation :
    (∀ name : String, validate_name name = true ↔
      (specNameMatch name.toList ∨
        ∃ cs, name.toList = cs ++ ['\n'] ∧ specNameMatch cs)) ∧
    validate_name "_VALID_NAME" = true ∧
    validate_name "1Invalid" = false ∧
    validate_name "Invalid-Name" = false ∧
    (∀ (name : String) (v : Value) (comments : List (Nat × String))
        (lines : List String) (env : Env),
      validate_name name = false →
      processEntry comments lines env (name, v) = .error (.invalidName name)) := by
  refine ⟨validate_name_iff, by decide, by decide, by decide, ?_⟩
  intro name v comments lines env hv
  simp [processEntry, hv]

/-- C7 witness: a rejected name aborts the run with the invalid-name
error whatever the entry value is. -/
theorem C7_name_validation_witness :
    processEntry [] [] [] ("1Invalid", Value.num (.intV 5)) =
      .error (.invalidName "1Invalid") :=
  C7_name_validation.2.2.2.2 "1Invalid" (Value.num (.intV 5)) [] [] [] (by decide)

/-- C8: the evaluator never mutates the constants dictionary: for every
expression and dictionary, the dictionary state returned alongside the
result (success or failure) is the dictionary that was passed in. -/
theorem C8_no_env_mutation :
    ∀ (expression : String) (constants : Env),
      ( evalExpression expression constants).2 = constants :=
  evalExpression_env_eq

/-- C9: a boolean entry value is caught by the numeric-scalar branch
(Python bool is a subclass of int): the line renders as True or False
followed by the entry name, the name is bound to the boolean in the
constants dictionary, and no unsupported-value error is raised. -/
theorem C9_bool_numeric_scalar :
    ∀ (name : String) (b : Bool) (comments : List (Nat × String))
      (lines : List String) (env : Env),
      validate_name name = true →
      processEntry comments lines env (name, .num (.boolV b)) =
        .ok (lines ++ [attachComment comments lines.length
              ((if b then "True" else "False") ++ " -> " ++ name)],
             insertEnv env name (.boolV b)) := by
  intro name b comments lines env hv
  simp [processEntry, hv, NumVal.render]

/-- C9 witness: the entry Flag bound to true renders as True -> Flag and
binds Flag in the environment. -/
theorem C9_bool_numeric_scalar_witness :
    processEntry [] [] [] ("Flag", .num (.boolV true)) =
      .ok (["True -> Flag"], [("Flag", .boolV true)]) := by
  have h := C9_bool_numeric_scalar "Flag" true [] [] [] (by decide)
  exact h

/-- C10: when the token loop completes successfully and leaves two or
more values on the stack, the evaluator raises no error and returns the
most recently pushed value (the stack head), silently discarding the
remaining values. -/
theorem C10_extra_stack_values_ignored :
    ∀ (expression : String) (env : Env) (stack : List NumVal),
      (runTokens (pySplitWs expression) [] env).1 = .ok stack →
      2 ≤ stack.length →
      ∃ top rest2, stack = top :: rest2 ∧
        ( evalExpression expression env).1 = .ok top := by
  intro expression env stack hrun hlen
  rcases hr : runTokens (pySplitWs expression) [] env with ⟨res, env2⟩
  rw [hr] at hrun
  simp only at hrun
  subst hrun
  cases stack with
  | nil => simp at hlen
  | cons top rest2 =>
    exact ⟨top, rest2, rfl, by simp [evalExpression, hr]⟩

/-- C10 witness: the stream 1 2 leaves two values on the stack and
evaluates to the most recently pushed value 2. -/
theorem C10_extra_stack_values_ignored_witness :
    ∃ top rest2, [NumVal.intV 2, NumVal.intV 1] = top :: rest2 ∧
      ( evalExpression "1 2" []).1 = .ok top :=
  C10_extra_stack_values_ignored "1 2" [] [.intV 2, .intV 1] rfl (by decide)
